import Mathlib

/-!
Shallow embedding of `src/packages/lib/src/helpers.ts` of the svelte-form
repository: default-value resolution, value normalization, error-tree
construction (`errorsToMap`) and component resolution
(`repackComponents` / `getComponent` / `getComponentProps`).

JavaScript runtime behaviour is modelled explicitly where the helpers depend
on it: `undefined` is distinct from `null`, property access on a missing key
yields `undefined`, `&&` short-circuits on falsiness, arrays accept named
(non-index) properties, and `.push` on a non-array throws a `TypeError`
(modelled with `Except`).
-/

/-- A JavaScript runtime value as the helpers handle it: JSON data plus
`undefined`, which property access on a missing key produces. -/
inductive JSVal where
  | undefined
  | null
  | boolean (b : Bool)
  | num (n : Int)
  | str (s : String)
  | arr (elems : List JSVal)
  | obj (fields : List (String × JSVal))

/-- JS truthiness: `undefined`, `null`, `false`, `0` and `""` are falsy;
arrays and objects (even empty ones) are truthy. -/
def JSVal.truthy : JSVal → Bool
  | .undefined => false
  | .null => false
  | .boolean b => b
  | .num n => n != 0
  | .str s => s != ""
  | .arr _ => true
  | .obj _ => true

/-- First-match field lookup on a JS object's (duplicate-free) field list;
a missing key reads as `undefined`. -/
def lookupField : List (String × JSVal) → String → JSVal
  | [], _ => .undefined
  | (k', v) :: tl, k => if k' = k then v else lookupField tl k

/-- `value[k]` for a string key: field lookup on plain objects; on every other
value the helpers never hit an existing string key, so the result is
`undefined`. -/
def jsProp (v : JSVal) (k : String) : JSVal :=
  match v with
  | .obj fields => lookupField fields k
  | _ => .undefined

/-- `value && value[k]` as in `objectDefaultValue`: short-circuits to `value`
itself when `value` is falsy, else reads the property. -/
def jsAndProp (v : JSVal) (k : String) : JSVal :=
  if v.truthy then jsProp v k else v

/-- An ajv error record as `errorsToMap` consumes it: the `dataPath` string,
the `keyword` tag, and `params.missingProperty` (only ever read when
`keyword = "required"`). -/
structure ErrorObj where
  dataPath : String
  keyword : String
  missingProperty : String
deriving DecidableEq, Repr

/-- The `FieldProps` record built by `createProps`: a value and an `errors`
field, where `none` models the JS `null`. -/
structure FieldProps where
  value : JSVal
  errors : Option (List ErrorObj)

/-- `createProps(value = null)`: builds `{ value, errors: null }`. -/
def createProps (value : JSVal := JSVal.null) : FieldProps :=
  { value := value, errors := none }

mutual

/-- A JSON-Schema node as the helpers read it: its `type` tag, its `default`
(`none` models the JS `undefined`, i.e. no default declared), and its
`properties` mapping (`none` when absent). -/
inductive JSONSchema where
  | mk (type : Option String) (dflt : Option JSVal) (properties : Option PropList)

/-- The `properties` mapping of an object schema, in declaration order. -/
inductive PropList where
  | nil
  | cons (key : String) (propSchema : PropSchema) (tl : PropList)

/-- A property's sub-schema: JSON Schema allows a bare boolean here, which
`objectDefaultValue` skips. -/
inductive PropSchema where
  | bool (b : Bool)
  | schema (s : JSONSchema)

end

/-- The schema's `type` field. -/
def JSONSchema.type : JSONSchema → Option String
  | .mk t _ _ => t

/-- The schema's `default` field (`none` = JS `undefined`). -/
def JSONSchema.dflt : JSONSchema → Option JSVal
  | .mk _ d _ => d

/-- The schema's `properties` field. -/
def JSONSchema.properties : JSONSchema → Option PropList
  | .mk _ _ p => p

/-- The guard opening `defaultValue`: `schema.default` replaces the value
only when the value is strictly `null` and a default is declared. -/
def substDefault (value : JSVal) (dflt : Option JSVal) : JSVal :=
  match value, dflt with
  | JSVal.null, some d => d
  | v, _ => v

mutual

/-- `objectDefaultValue(schema, value)`: iterates the declared properties in
order, skips boolean sub-schemas, and resolves each remaining property
against `value && value[k]`. Always returns an object. -/
def objectDefaultValue (schema : JSONSchema) (value : JSVal) : JSVal :=
  match schema with
  | .mk _ _ none => JSVal.obj []
  | .mk _ _ (some pl) => JSVal.obj (defaultFields pl value)
termination_by (sizeOf schema, 0)

/-- The property loop of `objectDefaultValue`, one field at a time. -/
def defaultFields (pl : PropList) (value : JSVal) : List (String × JSVal) :=
  match pl with
  | .nil => []
  | .cons k ps tl =>
    match ps with
    | .bool _ => defaultFields tl value
    | .schema s => (k, defaultValue s (jsAndProp value k)) :: defaultFields tl value
termination_by (sizeOf pl, 0)

/-- `defaultValue(schema, value)`: substitutes `schema.default` only when
`value === null` (strict equality, so `undefined` gets no default), then
dispatches on `schema.type`: objects recurse, arrays fall back to `[]`
when falsy, everything else passes through. -/
def defaultValue (schema : JSONSchema) (value : JSVal) : JSVal :=
  let v := substDefault value schema.dflt
  if schema.type = some "object" then objectDefaultValue schema v
  else if schema.type = some "array" then (if v.truthy then v else JSVal.arr [])
  else v
termination_by (sizeOf schema, 1)

end

mutual

/-- `normalizeObject(value, isRoot)` on the object's field list: normalizes
each field, drops fields whose result is `null`, and collapses an empty
result to `null` unless at the root (where it stays `{}`). -/
def normalizeObject (fields : List (String × JSVal)) (isRoot : Bool) : JSVal :=
  match normalizeFields fields with
  | [] => if isRoot then JSVal.obj [] else JSVal.null
  | f :: fs => JSVal.obj (f :: fs)
termination_by (sizeOf fields, 1)

/-- The `for k in value` loop of `normalizeObject`: plain-object values are
normalized as non-root, and a field is kept only when its resulting value
is not `null`. -/
def normalizeFields : List (String × JSVal) → List (String × JSVal)
  | [] => []
  | (k, v) :: tl =>
    match v with
    | JSVal.obj fs =>
      match normalizeObject fs false with
      | JSVal.null => normalizeFields tl
      | v' => (k, v') :: normalizeFields tl
    | JSVal.null => normalizeFields tl
    | v => (k, v) :: normalizeFields tl
termination_by l => (sizeOf l, 0)

end

/-- `normalizeValue(value)`: plain objects are normalized as root, every
other value (arrays included) passes through unchanged. -/
def normalizeValue (value : JSVal) : JSVal :=
  match value with
  | JSVal.obj fields => normalizeObject fields true
  | v => v

/-- Character-level split of a string on `'.'`, as JS `String.split(".")`
behaves for the single-character separator: `""` gives `[""]`, a leading
dot gives a leading empty segment. -/
def splitDotAux : List Char → List Char → List String
  | [], acc => [String.mk acc.reverse]
  | c :: cs, acc =>
    if c = '.' then String.mk acc.reverse :: splitDotAux cs []
    else splitDotAux cs (c :: acc)

/-- `s.split(".")`. -/
def splitDot (s : String) : List String := splitDotAux s.toList []

/-- The field path `errorsToMap` computes for one error record: append
`"." + missingProperty` when the keyword is `"required"`, split on `"."`,
drop the first segment (`.slice(1)`). -/
def pathOf (e : ErrorObj) : List String :=
  let pathSuffix := if e.keyword = "required" then "." ++ e.missingProperty else ""
  (splitDot (e.dataPath ++ pathSuffix)).drop 1

/-- A node of the error map under construction. JS arrays accept named
properties, so an error list carries an `extra` assoc list of named fields
alongside its elements; a `tree` node is a plain object. -/
inductive EVal where
  | list (errs : List ErrorObj) (extra : List (String × EVal))
  | tree (fields : List (String × EVal))

/-- First-match lookup in an error-map node's field list. -/
def lookupE : List (String × EVal) → String → Option EVal
  | [], _ => none
  | (k', v) :: tl, k => if k' = k then some v else lookupE tl k

/-- JS property assignment on a field list: overwrite in place when the key
exists, append otherwise. -/
def setEField : List (String × EVal) → String → EVal → List (String × EVal)
  | [], k, v => [(k, v)]
  | (k', v') :: tl, k, v =>
    if k' = k then (k, v) :: tl else (k', v') :: setEField tl k v

/-- `node[k]` on an error-map node: named properties live in `extra` when the
node is an array. -/
def getEProp : EVal → String → Option EVal
  | .tree fs, k => lookupE fs k
  | .list _ extra, k => lookupE extra k

/-- `node[k] = v` on an error-map node. -/
def setEProp : EVal → String → EVal → EVal
  | .tree fs, k, v => .tree (setEField fs k v)
  | .list errs extra, k, v => .list errs (setEField extra k v)

/-- The inner `path.reduce` of `errorsToMap`, rewritten as recursion on the
path with the mutations made explicit. On a non-final segment it descends
into the existing node (stored nodes are always truthy) or a freshly created
`{}`; on the final segment it pushes onto the existing value — a `TypeError`
(modelled as `Except.error`) when that value is not an array — or stores a
fresh singleton list. An empty path leaves the accumulator untouched. -/
def addError : EVal → List String → ErrorObj → Except Unit EVal
  | node, [], _ => Except.ok node
  | node, [k], e =>
    match getEProp node k with
    | some (EVal.list errs extra) =>
      Except.ok (setEProp node k (EVal.list (errs ++ [e]) extra))
    | some (EVal.tree _) => Except.error ()
    | none => Except.ok (setEProp node k (EVal.list [e] []))
  | node, k :: k' :: rest, e =>
    let child := match getEProp node k with
      | some c => c
      | none => EVal.tree []
    match addError child (k' :: rest) e with
    | Except.ok child' => Except.ok (setEProp node k child')
    | Except.error u => Except.error u

/-- The body of the outer `reduce` of `errorsToMap`: one error folded into
the accumulated tree (a `TypeError` already raised passes through). -/
def etmStep (acc : Except Unit EVal) (e : ErrorObj) : Except Unit EVal :=
  match acc with
  | Except.ok t => addError t (pathOf e) e
  | Except.error u => Except.error u

/-- `errorsToMap(errors)`: compute each record's path, then fold all
(path, error) pairs into one tree starting from `{}`. A `TypeError` raised
by the fold aborts the whole call. -/
def errorsToMap (errors : List ErrorObj) : Except Unit EVal :=
  errors.foldl etmStep (Except.ok (EVal.tree []))

mutual

/-- The error-tree invariant stated by the spec: every value in a node is
either a sub-tree (recursively well-formed) or a plain non-empty error list
carrying no named sub-tree entries. -/
def wfEVal : EVal → Bool
  | .list errs extra => !errs.isEmpty && extra.isEmpty
  | .tree fs => wfEFields fs

/-- The invariant ranged over a node's field list. -/
def wfEFields : List (String × EVal) → Bool
  | [] => true
  | (_, v) :: tl => wfEVal v && wfEFields tl

end

/-- A value living in a component registry: an opaque component reference,
a `[component, props]` array, a plain object (a props bag or a nested
path mapping), or `undefined` for an absent entry. -/
inductive CVal where
  | undefined
  | comp (name : String)
  | arr (elems : List CVal)
  | obj (fields : List (String × CVal))

/-- Truthiness of registry values: only `undefined` is falsy here (components,
arrays and objects are all truthy in JS). -/
def CVal.truthy : CVal → Bool
  | .undefined => false
  | _ => true

/-- First-match field lookup in a registry object; missing keys read as
`undefined`. -/
def lookupC : List (String × CVal) → String → CVal
  | [], _ => .undefined
  | (k', v) :: tl, k => if k' = k then v else lookupC tl k

/-- `v[k]` on a registry value: field lookup on plain objects, `undefined`
otherwise. -/
def cProp (v : CVal) (k : String) : CVal :=
  match v with
  | .obj fields => lookupC fields k
  | _ => .undefined

/-- The `FormComponents` registry: the per-schema-type component entries
(`components[type]`) and the optional `path` field (`CVal.undefined` models an
absent `path`). -/
structure FormComponents where
  types : List (String × CVal)
  path : CVal

/-- `repackComponents(components, type, key)`: when the type is `"object"`
and `components.path` is truthy, replace `path` by `components.path[key]`
(whatever that entry is — the code performs no shape check); otherwise
return the registry unchanged. -/
def repackComponents (components : FormComponents) (type : String) (key : String) :
    FormComponents :=
  if type = "object" then
    if components.path.truthy then
      { components with path := cProp components.path key }
    else components
  else components

/-- `getComponent(components, type, key)`: for type `"object"` with a truthy
`components.path && components.path[key]`, return element 0 when that entry
is an array, else the entry itself; in every other case return
`components[type]`. -/
def getComponent (components : FormComponents) (type : String) (key : String) : CVal :=
  if type = "object" then
    let pathComponent :=
      if components.path.truthy then cProp components.path key else components.path
    if pathComponent.truthy then
      match pathComponent with
      | CVal.arr elems => elems.getD 0 CVal.undefined
      | pc => pc
    else lookupC components.types type
  else lookupC components.types type

/-- `getComponentProps(components, type, key)`: element 1 of the path entry
when the type is `"object"` and that entry is an array; `{}` in every other
case. -/
def getComponentProps (components : FormComponents) (type : String) (key : String) : CVal :=
  if type = "object" then
    let pathComponent :=
      if components.path.truthy then cProp components.path key else components.path
    if pathComponent.truthy then
      match pathComponent with
      | CVal.arr elems => elems.getD 1 CVal.undefined
      | _ => CVal.obj []
    else CVal.obj []
  else CVal.obj []

/-- Node lookup along a path of segments (specification device for the
error-tree invariant): `[]` is the node itself, otherwise descend through
`getEProp`. -/
def nodeAt : EVal → List String → Option EVal
  | t, [] => some t
  | t, k :: p =>
    match getEProp t k with
    | some c => nodeAt c p
    | none => none

/-- The node at `r` exists and is an error list (possibly carrying named
properties). -/
def isListNode (t : EVal) (r : List String) : Prop :=
  ∃ errs extra, nodeAt t r = some (EVal.list errs extra)

/-- The node at `r` exists and is a plain-object tree node. -/
def isTreeNode (t : EVal) (r : List String) : Prop :=
  ∃ fs, nodeAt t r = some (EVal.tree fs)

/-- A path is a proper prefix of another. -/
def ProperPrefix (a b : List String) : Prop := a ≠ b ∧ a <+: b

/-- The descent of `addError` along `p` meets no obstruction in `t`: every
existing node at a strict interior segment is a tree, and the existing node
at the final segment, if any, is a list. -/
def freeForP : EVal → List String → Prop
  | _, [] => True
  | t, [k] => ∀ c, getEProp t k = some c → ∃ errs extra, c = EVal.list errs extra
  | t, k :: k' :: rest => ∀ c, getEProp t k = some c →
      (∃ fs, c = EVal.tree fs) ∧ freeForP c (k' :: rest)

/-- The object schema `{properties: {a: {type:"string", default:"x"},
b: {type:"number"}}}` of the spec's default-value example. -/
def schemaAB : JSONSchema :=
  JSONSchema.mk (some "object") none
    (some (PropList.cons "a"
      (PropSchema.schema (JSONSchema.mk (some "string") (some (JSVal.str "x")) none))
      (PropList.cons "b"
        (PropSchema.schema (JSONSchema.mk (some "number") none none)) PropList.nil)))

/-- A registry whose `path` holds a nested sub-registry shape at `"address"`,
as in the spec's `repackComponents` example. -/
def regAddr : FormComponents :=
  FormComponents.mk [("object", CVal.comp "CompO")]
    (CVal.obj [("address", CVal.obj [("path", CVal.obj [("city", CVal.comp "CompB")])])])

/-- A registry whose `path` holds a bare component at `"name"` and nothing
else. -/
def regName : FormComponents :=
  FormComponents.mk [("object", CVal.comp "CompO")] (CVal.obj [("name", CVal.comp "CompA")])

/-- A registry with a `[component, props]` pair at `"name"`, as in the spec's
`getComponent` example. -/
def regPair : FormComponents :=
  FormComponents.mk [("object", CVal.comp "CompO"), ("string", CVal.comp "CompS")]
    (CVal.obj [("name", CVal.arr [CVal.comp "CompA", CVal.obj [("x", CVal.comp "xProp")]])])

/-- C9: for every argument value (including the omitted argument, which
defaults to `null`), `createProps` returns a props record whose `value`
field equals the argument and whose `errors` field is `null`. -/
theorem createProps_spec :
    (∀ v : JSVal, (createProps v).value = v ∧ (createProps v).errors = none) ∧
    (createProps : FieldProps).value = JSVal.null ∧
    (createProps : FieldProps).errors = none :=
  ⟨fun _ => ⟨rfl, rfl⟩, rfl, rfl⟩

/-- C4: `errorsToMap` computes each error's field path by appending
`"." + missingProperty` for `"required"` errors, splitting on `"."` and
dropping the first segment; on the spec's two-record example it returns the
tree with exactly the keys `"foo"` and `"bar"`, each holding the singleton
list of its record. -/
theorem errorsToMap_path_example :
    (∀ e : ErrorObj, pathOf e =
      (splitDot (e.dataPath ++
        (if e.keyword = "required" then "." ++ e.missingProperty else ""))).drop 1) ∧
    errorsToMap [ErrorObj.mk ".foo" "type" "", ErrorObj.mk "" "required" "bar"] =
      Except.ok (EVal.tree [("foo", EVal.list [ErrorObj.mk ".foo" "type" ""] []),
                            ("bar", EVal.list [ErrorObj.mk "" "required" "bar"] [])]) :=
  ⟨fun _ => rfl, rfl⟩

/-- C6: `normalizeValue` keeps an empty root mapping as `{}`, while a nested
mapping that normalizes to zero keys collapses to `null`
(`normalizeObject [] false = null`) and is dropped by its parent, as on the
spec's example `{a: {}, b: {c: 1}}`. -/
theorem normalizeValue_root_vs_nested :
    normalizeValue (JSVal.obj []) = JSVal.obj [] ∧
    normalizeObject [] false = JSVal.null ∧
    normalizeValue (JSVal.obj [("a", JSVal.obj []), ("b", JSVal.obj [("c", JSVal.num 1)])]) =
      JSVal.obj [("b", JSVal.obj [("c", JSVal.num 1)])] := by
  refine ⟨?_, ?_, ?_⟩ <;> simp [normalizeValue, normalizeObject, normalizeFields]

/-- C2 counterexample: on `registry.path = {address: {path: {city: CompB}}}`,
`repackComponents(registry, "object", "address")` sets `path` to the whole
entry `{path: {city: CompB}}`, not to `{city: CompB}` as the claim states. -/
theorem repackComponents_nested_counterexample :
    (repackComponents regAddr "object" "address").path =
      CVal.obj [("path", CVal.obj [("city", CVal.comp "CompB")])] ∧
    (repackComponents regAddr "object" "address").path ≠
      CVal.obj [("city", CVal.comp "CompB")] := by
  refine ⟨rfl, ?_⟩
  simp [repackComponents, regAddr, cProp, lookupC, CVal.truthy]

/-- C2 amended: whenever `registry.path` is present (truthy) and the type is
`"object"`, `repackComponents` returns the registry with `path` replaced by
the raw entry `registry.path[key]` — no shape check is performed — so on the
spec's example the new `path` is the whole sub-registry value
`{path: {city: CompB}}`. -/
theorem repackComponents_replaces_path :
    (∀ (c : FormComponents) (key : String), c.path.truthy = true →
      repackComponents c "object" key = { c with path := cProp c.path key }) ∧
    (repackComponents regAddr "object" "address").path =
      CVal.obj [("path", CVal.obj [("city", CVal.comp "CompB")])] := by
  refine ⟨fun c key h => ?_, rfl⟩
  simp [repackComponents, h]

/-- Witness for the amended C2 theorem at the spec's example registry. -/
theorem repackComponents_replaces_path_witness :
    repackComponents regAddr "object" "address" =
      { regAddr with path := CVal.obj [("path", CVal.obj [("city", CVal.comp "CompB")])] } := by
  have h := repackComponents_replaces_path.1 regAddr "address" rfl
  simpa [regAddr, cProp, lookupC] using h

/-- C3 counterexample: with `registry.path = {name: CompA}` and the absent
key `"other"` — so no entry at the key, let alone a nested sub-registry —
`repackComponents(registry, "object", "other")` still rewrites `path`
to `undefined`, changing the registry. -/
theorem repackComponents_missing_key_counterexample :
    (repackComponents regName "object" "other").path = CVal.undefined ∧
    regName.path ≠ CVal.undefined ∧
    repackComponents regName "object" "other" ≠ regName := by
  refine ⟨rfl, ?_, ?_⟩
  · simp [regName]
  · simp [repackComponents, regName, cProp, lookupC, CVal.truthy]

/-- C3 amended: `repackComponents` returns the registry unchanged exactly
when the type is not `"object"` or `registry.path` is absent (falsy); when
the type is `"object"` and `path` is present it always replaces `path` by
`path[key]`, even when that entry is missing or is a component/pair. -/
theorem repackComponents_frame (c : FormComponents) (ty key : String)
    (h : ty ≠ "object" ∨ c.path.truthy = false) :
    repackComponents c ty key = c := by
  rcases h with h | h <;> simp [repackComponents, h]

/-- Witness for the C3 frame theorem at a non-object type. -/
theorem repackComponents_frame_witness :
    repackComponents regName "string" "other" = regName :=
  repackComponents_frame regName "string" "other" (Or.inl (by decide))

/-- C5 counterexample: on the spec's schema and the non-null input `{}`
(which merely lacks the keys), `defaultValue` substitutes no default: the
missing sub-values are `undefined`, not `null`, so the strict `=== null`
test fails and the result is `{a: undefined, b: undefined}`, not
`{a: "x", b: null}`. -/
theorem defaultValue_absent_key_counterexample :
    defaultValue schemaAB (JSVal.obj []) = JSVal.obj [("a", JSVal.undefined), ("b", JSVal.undefined)] ∧
    JSVal.obj [("a", JSVal.undefined), ("b", JSVal.undefined)] ≠
      JSVal.obj [("a", JSVal.str "x"), ("b", JSVal.null)] := by
  refine ⟨?_, by simp⟩
  simp [schemaAB, defaultValue, substDefault, objectDefaultValue, defaultFields, jsAndProp,
    jsProp, JSVal.truthy, JSONSchema.type, JSONSchema.dflt, lookupField]

/-- C5 amended: `defaultValue` resolves each declared non-boolean property
against its sub-value and substitutes a schema default only when that
sub-value is strictly `null` — so input `null` yields `{a:"x", b:null}` on
the spec's schema, but a non-null mapping that merely lacks the key yields
`undefined` for it and no default is substituted (shown generally: a
non-object, non-array schema maps an `undefined` value to `undefined`
regardless of its declared default). -/
theorem defaultValue_amended :
    defaultValue schemaAB JSVal.null = JSVal.obj [("a", JSVal.str "x"), ("b", JSVal.null)] ∧
    defaultValue schemaAB (JSVal.obj []) =
      JSVal.obj [("a", JSVal.undefined), ("b", JSVal.undefined)] ∧
    (∀ s : JSONSchema, s.type ≠ some "object" → s.type ≠ some "array" →
      defaultValue s JSVal.undefined = JSVal.undefined) := by
  refine ⟨?_, ?_, fun s h1 h2 => ?_⟩
  · simp [schemaAB, defaultValue, substDefault, objectDefaultValue, defaultFields, jsAndProp,
      jsProp, JSVal.truthy, JSONSchema.type, JSONSchema.dflt, lookupField]
  · simp [schemaAB, defaultValue, substDefault, objectDefaultValue, defaultFields, jsAndProp,
      jsProp, JSVal.truthy, JSONSchema.type, JSONSchema.dflt, lookupField]
  · simp [defaultValue, substDefault, h1, h2]

/-- Witness for the amended C5 theorem: a string schema with a declared
default leaves `undefined` untouched. -/
theorem defaultValue_amended_witness :
    defaultValue (JSONSchema.mk (some "string") (some (JSVal.str "x")) none) JSVal.undefined =
      JSVal.undefined :=
  defaultValue_amended.2.2 (JSONSchema.mk (some "string") (some (JSVal.str "x")) none)
    (by decide) (by decide)

/-- C8: for type `"object"`, a `[component, props]` pair at the key resolves
to the pair's elements, a bare component resolves to itself with `{}` props,
and with no override (entry absent, or any non-object type) `getComponent`
falls back to the component registered for the type while
`getComponentProps` returns `{}`. -/
theorem getComponent_spec (c : FormComponents) (ty key : String) :
    (∀ cmp pr : CVal, cProp c.path key = CVal.arr [cmp, pr] →
      getComponent c "object" key = cmp ∧ getComponentProps c "object" key = pr) ∧
    (∀ name : String, cProp c.path key = CVal.comp name →
      getComponent c "object" key = CVal.comp name ∧
      getComponentProps c "object" key = CVal.obj []) ∧
    (cProp c.path key = CVal.undefined →
      getComponent c "object" key = lookupC c.types "object" ∧
      getComponentProps c "object" key = CVal.obj []) ∧
    (ty ≠ "object" →
      getComponent c ty key = lookupC c.types ty ∧
      getComponentProps c ty key = CVal.obj []) := by
  refine ⟨fun cmp pr h => ?_, fun name h => ?_, fun h => ?_, fun h => ?_⟩
  · cases hcp : c.path <;> rw [hcp] at h <;> simp [cProp] at h
    constructor <;> simp [getComponent, getComponentProps, hcp, CVal.truthy, cProp, h]
  · cases hcp : c.path <;> rw [hcp] at h <;> simp [cProp] at h
    constructor <;> simp [getComponent, getComponentProps, hcp, CVal.truthy, cProp, h]
  · cases hcp : c.path <;> rw [hcp] at h <;>
      simp [getComponent, getComponentProps, hcp, CVal.truthy, cProp, h] <;>
      simp [cProp] at h <;> simp [h]
  · constructor <;> simp [getComponent, getComponentProps, h]

/-- Witness for C8 at the spec's example registry: the pair at `"name"`
resolves to its component and props; an absent key and a non-object type
fall back to the registered components. -/
theorem getComponent_spec_witness :
    getComponent regPair "object" "name" = CVal.comp "CompA" ∧
    getComponentProps regPair "object" "name" = CVal.obj [("x", CVal.comp "xProp")] ∧
    getComponent regPair "object" "other" = CVal.comp "CompO" ∧
    getComponent regPair "string" "name" = CVal.comp "CompS" := by
  have h1 := (getComponent_spec regPair "object" "name").1
    (CVal.comp "CompA") (CVal.obj [("x", CVal.comp "xProp")]) rfl
  have h3 := (getComponent_spec regPair "object" "other").2.2.1 rfl
  have h4 := (getComponent_spec regPair "string" "name").2.2.2 (by decide)
  exact ⟨h1.1, h1.2, by simpa [regPair, lookupC] using h3.1,
    by simpa [regPair, lookupC] using h4.1⟩

/-- C10: an error record that is not a `"required"` error and has an empty
data path gets an empty computed path, so the inner fold leaves the
accumulator untouched: `errorsToMap` on any list containing such a record
equals `errorsToMap` on the list with the record removed. -/
theorem errorsToMap_drops_empty_path (before after : List ErrorObj) (e : ErrorObj)
    (h1 : e.keyword ≠ "required") (h2 : e.dataPath = "") :
    errorsToMap (before ++ e :: after) = errorsToMap (before ++ after) := by
  have hp : pathOf e = [] := by
    simp only [pathOf, if_neg h1, h2]
    rfl
  have hstep : ∀ acc : Except Unit EVal, etmStep acc e = acc := by
    intro acc
    cases acc <;> simp [etmStep, hp, addError]
  simp [errorsToMap, List.foldl_append, hstep]

/-- Witness for C10: dropping a root-scoped non-required record from a
two-record list leaves the result of the remaining record alone. -/
theorem errorsToMap_drops_empty_path_witness :
    (ErrorObj.mk "" "type" "").keyword ≠ "required" ∧
    (ErrorObj.mk "" "type" "").dataPath = "" ∧
    errorsToMap [ErrorObj.mk ".foo" "type" "", ErrorObj.mk "" "type" ""] =
      errorsToMap [ErrorObj.mk ".foo" "type" ""] :=
  ⟨by decide, rfl,
    errorsToMap_drops_empty_path [ErrorObj.mk ".foo" "type" ""] []
      (ErrorObj.mk "" "type" "") (by decide) rfl⟩

/-- Size-bounded strong induction for the normalizer: one pass over a field
list is a fixed point of a second pass. -/
theorem normalizeFields_idem_aux :
    ∀ (n : Nat) (l : List (String × JSVal)), sizeOf l ≤ n →
      normalizeFields (normalizeFields l) = normalizeFields l := by
  intro n
  induction n with
  | zero =>
    intro l h
    cases l with
    | nil => simp [normalizeFields]
    | cons hd tl => simp [List.cons.sizeOf_spec] at h
  | succ n ih =>
    intro l h
    match l with
    | [] => simp [normalizeFields]
    | (k, v) :: tl =>
      have htl : sizeOf tl ≤ n := by
        simp [List.cons.sizeOf_spec, Prod.mk.sizeOf_spec] at h
        omega
      cases v with
      | obj fs =>
        have hfssz : sizeOf fs ≤ n := by
          simp [List.cons.sizeOf_spec, Prod.mk.sizeOf_spec, JSVal.obj.sizeOf_spec] at h
          omega
        cases hfs : normalizeFields fs with
        | nil => simp [normalizeFields, normalizeObject, hfs, ih tl htl]
        | cons f fs' =>
          have h1 : normalizeFields (f :: fs') = f :: fs' := by
            have h2 := ih fs hfssz
            rwa [hfs] at h2
          simp [normalizeFields, normalizeObject, hfs, h1, ih tl htl]
      | undefined => simp [normalizeFields, ih tl htl]
      | null => simp [normalizeFields, ih tl htl]
      | boolean b => simp [normalizeFields, ih tl htl]
      | num m => simp [normalizeFields, ih tl htl]
      | str s => simp [normalizeFields, ih tl htl]
      | arr elems => simp [normalizeFields, ih tl htl]

/-- One normalization pass over a field list is idempotent. -/
theorem normalizeFields_idem (l : List (String × JSVal)) :
    normalizeFields (normalizeFields l) = normalizeFields l :=
  normalizeFields_idem_aux (sizeOf l) l (le_refl _)

/-- C7: `normalizeValue` is idempotent — applying it to its own result
returns that result unchanged, for every value. -/
theorem normalizeValue_idem (value : JSVal) :
    normalizeValue (normalizeValue value) = normalizeValue value := by
  cases value with
  | obj fields =>
    cases hfs : normalizeFields fields with
    | nil => simp [normalizeValue, normalizeObject, normalizeFields, hfs]
    | cons f fs' =>
      have h1 : normalizeFields (f :: fs') = f :: fs' := by
        have h2 := normalizeFields_idem fields
        rwa [hfs] at h2
      simp [normalizeValue, normalizeObject, hfs, h1]
  | undefined => rfl
  | null => rfl
  | boolean b => rfl
  | num n => rfl
  | str s => rfl
  | arr elems => rfl

instance (a b : List String) : Decidable (ProperPrefix a b) :=
  inferInstanceAs (Decidable (a ≠ b ∧ a <+: b))

/-- Lookup after a JS property assignment: the written key reads back the
written value, every other key is untouched. -/
theorem lookupE_setEField (fs : List (String × EVal)) (k q : String) (v : EVal) :
    lookupE (setEField fs k v) q = if k = q then some v else lookupE fs q := by
  induction fs with
  | nil => by_cases h : k = q <;> simp [setEField, lookupE, h]
  | cons hd tl ih =>
    obtain ⟨k', v'⟩ := hd
    by_cases h1 : k' = k
    · subst h1
      by_cases h2 : k' = q <;> simp [setEField, lookupE, h2]
    · by_cases h2 : k' = q
      · subst h2
        have h3 : ¬ k = k' := fun h => h1 h.symm
        simp [setEField, lookupE, h1, h3]
      · by_cases h3 : k = q
        · subst h3
          simp [setEField, lookupE, h1, h2, ih]
        · simp [setEField, lookupE, h1, h2, h3, ih]

/-- Every value stored in a well-formed field list is well-formed. -/
theorem wfEFields_lookup (fs : List (String × EVal)) (k : String) (c : EVal)
    (hwf : wfEFields fs = true) (hc : lookupE fs k = some c) : wfEVal c = true := by
  induction fs with
  | nil => simp [lookupE] at hc
  | cons hd tl ih =>
    obtain ⟨k', v'⟩ := hd
    simp [wfEFields] at hwf
    by_cases h : k' = k
    · simp [lookupE, h] at hc
      exact hc ▸ hwf.1
    · simp [lookupE, h] at hc
      exact ih hwf.2 hc

/-- Assigning a well-formed value preserves well-formedness of a field
list. -/
theorem wfEFields_set (fs : List (String × EVal)) (k : String) (v : EVal)
    (hwf : wfEFields fs = true) (hv : wfEVal v = true) :
    wfEFields (setEField fs k v) = true := by
  induction fs with
  | nil => simp [setEField, wfEFields, hv]
  | cons hd tl ih =>
    obtain ⟨k', v'⟩ := hd
    simp [wfEFields] at hwf
    by_cases h : k' = k
    · simp [setEField, h, wfEFields, hv, hwf.2]
    · simp [setEField, h, wfEFields, hwf.1, ih hwf.2]

/-- A well-formed list node carries no named properties. -/
theorem wfList_extra (errs : List ErrorObj) (extra : List (String × EVal))
    (h : wfEVal (EVal.list errs extra) = true) : extra = [] := by
  cases extra with
  | nil => rfl
  | cons a tl => simp [wfEVal] at h

/-- Descending one known child. -/
theorem nodeAt_cons_some {t c : EVal} {k : String} (hc : getEProp t k = some c)
    (r : List String) : nodeAt t (k :: r) = nodeAt c r := by
  simp [nodeAt, hc]

/-- Descending where no child exists. -/
theorem nodeAt_cons_none {t : EVal} {k : String} (hc : getEProp t k = none)
    (r : List String) : nodeAt t (k :: r) = none := by
  simp [nodeAt, hc]

/-- Node lookup after a field assignment on a tree node. -/
theorem nodeAt_set_tree (fs : List (String × EVal)) (k : String) (v : EVal)
    (q : String) (r : List String) :
    nodeAt (EVal.tree (setEField fs k v)) (q :: r) =
      if k = q then nodeAt v r else nodeAt (EVal.tree fs) (q :: r) := by
  by_cases h : k = q <;> simp [nodeAt, getEProp, lookupE_setEField, h]

/-- A proper prefix stays proper under a common head. -/
theorem ProperPrefix.cons {r q : List String} (k : String) (h : ProperPrefix r q) :
    ProperPrefix (k :: r) (k :: q) := by
  obtain ⟨hne, hpre⟩ := h
  exact ⟨fun hc => hne (by injection hc), (List.cons_prefix_cons).2 ⟨rfl, hpre⟩⟩

/-- A singleton path is a proper prefix of any longer path sharing its
head. -/
theorem ProperPrefix_single {k : String} {q : List String} (h : q ≠ []) :
    ProperPrefix [k] (k :: q) := by
  constructor
  · intro hc
    injection hc with h1 h2
    exact h h2.symm
  · exact (List.cons_prefix_cons).2 ⟨rfl, List.nil_prefix⟩

/-- A freshly created `{}` node obstructs no descent. -/
theorem freeForP_tree_nil : ∀ p : List String, freeForP (EVal.tree []) p := by
  intro p
  match p with
  | [] => trivial
  | [k] =>
    intro c hc
    simp [getEProp, lookupE] at hc
  | k :: k' :: rest =>
    intro c hc
    simp [getEProp, lookupE] at hc

/-- Obstruction-freedom follows from the absence of list nodes at proper
prefixes of the path and of a tree node at the path itself. -/
theorem freeFor_of :
    ∀ (p : List String) (t : EVal), p ≠ [] →
      (∀ r, r ≠ [] → ProperPrefix r p → ¬ isListNode t r) →
      ¬ isTreeNode t p →
      freeForP t p := by
  intro p
  induction p with
  | nil => intro t h _ _; exact absurd rfl h
  | cons k rest ih =>
    intro t _ hA hB
    cases rest with
    | nil =>
      intro c hc
      cases c with
      | tree cfs => exact absurd ⟨cfs, by simp [nodeAt, hc]⟩ hB
      | list errs extra => exact ⟨errs, extra, rfl⟩
    | cons k' rest' =>
      intro c hc
      cases c with
      | list errs extra =>
        exact absurd ⟨errs, extra, by simp [nodeAt, hc]⟩
          (hA [k] (by simp) (ProperPrefix_single (by simp)))
      | tree cfs =>
        refine ⟨⟨cfs, rfl⟩, ih (EVal.tree cfs) (by simp) ?_ ?_⟩
        · intro r hr hpp hln
          obtain ⟨errs, extra, hn⟩ := hln
          exact hA (k :: r) (by simp) (ProperPrefix.cons k hpp)
            ⟨errs, extra, by rw [nodeAt_cons_some hc]; exact hn⟩
        · intro htn
          obtain ⟨fs2, hn⟩ := htn
          exact hB ⟨fs2, by rw [nodeAt_cons_some hc]; exact hn⟩

/-- One obstruction-free `addError` on a well-formed tree succeeds, keeps the
tree well-formed, and creates new nodes only along the inserted path: any
list node of the result is an old list node or sits exactly at the path, and
any non-root tree node is an old tree node or sits at a proper prefix of the
path. -/
theorem addError_step :
    ∀ (p : List String) (fs : List (String × EVal)) (e : ErrorObj), p ≠ [] →
      wfEVal (EVal.tree fs) = true → freeForP (EVal.tree fs) p →
      ∃ fs', addError (EVal.tree fs) p e = Except.ok (EVal.tree fs') ∧
        wfEVal (EVal.tree fs') = true ∧
        (∀ r, isListNode (EVal.tree fs') r → isListNode (EVal.tree fs) r ∨ r = p) ∧
        (∀ r, r ≠ [] → isTreeNode (EVal.tree fs') r →
          isTreeNode (EVal.tree fs) r ∨ ProperPrefix r p) := by
  intro p
  induction p with
  | nil => intro fs e h; exact absurd rfl h
  | cons k rest ih =>
    intro fs e _ hwf hfree
    have hwff : wfEFields fs = true := by simpa [wfEVal] using hwf
    cases rest with
    | nil =>
      cases hc : getEProp (EVal.tree fs) k with
      | some c =>
        obtain ⟨errs, extra, rfl⟩ := hfree c hc
        have hcwf : wfEVal (EVal.list errs extra) = true := wfEFields_lookup fs k _ hwff hc
        obtain rfl : extra = [] := wfList_extra errs extra hcwf
        refine ⟨setEField fs k (EVal.list (errs ++ [e]) []), ?_, ?_, ?_, ?_⟩
        · simp [addError, hc, setEProp]
        · have hv : wfEVal (EVal.list (errs ++ [e]) []) = true := by simp [wfEVal]
          simpa [wfEVal] using wfEFields_set fs k _ hwff hv
        · intro r hln
          obtain ⟨errs2, extra2, hn⟩ := hln
          cases r with
          | nil => simp [nodeAt] at hn
          | cons q r' =>
            rw [nodeAt_set_tree] at hn
            by_cases hq : k = q
            · rw [if_pos hq] at hn
              subst hq
              cases r' with
              | nil => right; rfl
              | cons q' r'' => simp [nodeAt, getEProp, lookupE] at hn
            · rw [if_neg hq] at hn
              exact Or.inl ⟨errs2, extra2, hn⟩
        · intro r hr htn
          obtain ⟨fs2, hn⟩ := htn
          cases r with
          | nil => exact absurd rfl hr
          | cons q r' =>
            rw [nodeAt_set_tree] at hn
            by_cases hq : k = q
            · rw [if_pos hq] at hn
              cases r' with
              | nil => simp [nodeAt] at hn
              | cons q' r'' => simp [nodeAt, getEProp, lookupE] at hn
            · rw [if_neg hq] at hn
              exact Or.inl ⟨fs2, hn⟩
      | none =>
        refine ⟨setEField fs k (EVal.list [e] []), ?_, ?_, ?_, ?_⟩
        · simp [addError, hc, setEProp]
        · have hv : wfEVal (EVal.list [e] []) = true := by simp [wfEVal]
          simpa [wfEVal] using wfEFields_set fs k _ hwff hv
        · intro r hln
          obtain ⟨errs2, extra2, hn⟩ := hln
          cases r with
          | nil => simp [nodeAt] at hn
          | cons q r' =>
            rw [nodeAt_set_tree] at hn
            by_cases hq : k = q
            · rw [if_pos hq] at hn
              subst hq
              cases r' with
              | nil => right; rfl
              | cons q' r'' => simp [nodeAt, getEProp, lookupE] at hn
            · rw [if_neg hq] at hn
              exact Or.inl ⟨errs2, extra2, hn⟩
        · intro r hr htn
          obtain ⟨fs2, hn⟩ := htn
          cases r with
          | nil => exact absurd rfl hr
          | cons q r' =>
            rw [nodeAt_set_tree] at hn
            by_cases hq : k = q
            · rw [if_pos hq] at hn
              cases r' with
              | nil => simp [nodeAt] at hn
              | cons q' r'' => simp [nodeAt, getEProp, lookupE] at hn
            · rw [if_neg hq] at hn
              exact Or.inl ⟨fs2, hn⟩
    | cons k' rest' =>
      cases hc : getEProp (EVal.tree fs) k with
      | some c =>
        obtain ⟨⟨cfs, rfl⟩, hfree'⟩ := hfree c hc
        have hcwf : wfEVal (EVal.tree cfs) = true := wfEFields_lookup fs k _ hwff hc
        obtain ⟨cfs', hok, hwf', hlist', htree'⟩ := ih cfs e (by simp) hcwf hfree'
        refine ⟨setEField fs k (EVal.tree cfs'), ?_, ?_, ?_, ?_⟩
        · simp [addError, hc, hok, setEProp]
        · simpa [wfEVal] using wfEFields_set fs k _ hwff hwf'
        · intro r hln
          obtain ⟨errs2, extra2, hn⟩ := hln
          cases r with
          | nil => simp [nodeAt] at hn
          | cons q r' =>
            rw [nodeAt_set_tree] at hn
            by_cases hq : k = q
            · rw [if_pos hq] at hn
              subst hq
              rcases hlist' r' ⟨errs2, extra2, hn⟩ with h | h
              · left
                obtain ⟨e3, x3, hn3⟩ := h
                exact ⟨e3, x3, by rw [nodeAt_cons_some hc]; exact hn3⟩
              · right; rw [h]
            · rw [if_neg hq] at hn
              exact Or.inl ⟨errs2, extra2, hn⟩
        · intro r hr htn
          obtain ⟨fs2, hn⟩ := htn
          cases r with
          | nil => exact absurd rfl hr
          | cons q r' =>
            rw [nodeAt_set_tree] at hn
            by_cases hq : k = q
            · rw [if_pos hq] at hn
              subst hq
              cases r' with
              | nil =>
                left
                exact ⟨cfs, by rw [nodeAt_cons_some hc]; rfl⟩
              | cons q' r'' =>
                rcases htree' (q' :: r'') (by simp) ⟨fs2, hn⟩ with h | h
                · left
                  obtain ⟨f3, hn3⟩ := h
                  exact ⟨f3, by rw [nodeAt_cons_some hc]; exact hn3⟩
                · right
                  exact ProperPrefix.cons k h
            · rw [if_neg hq] at hn
              exact Or.inl ⟨fs2, hn⟩
      | none =>
        have hwfnil : wfEVal (EVal.tree []) = true := by simp [wfEVal, wfEFields]
        obtain ⟨cfs', hok, hwf', hlist', htree'⟩ :=
          ih [] e (by simp) hwfnil (freeForP_tree_nil _)
        refine ⟨setEField fs k (EVal.tree cfs'), ?_, ?_, ?_, ?_⟩
        · simp [addError, hc, hok, setEProp]
        · simpa [wfEVal] using wfEFields_set fs k _ hwff hwf'
        · intro r hln
          obtain ⟨errs2, extra2, hn⟩ := hln
          cases r with
          | nil => simp [nodeAt] at hn
          | cons q r' =>
            rw [nodeAt_set_tree] at hn
            by_cases hq : k = q
            · rw [if_pos hq] at hn
              subst hq
              rcases hlist' r' ⟨errs2, extra2, hn⟩ with h | h
              · obtain ⟨e3, x3, hn3⟩ := h
                cases r' with
                | nil => simp [nodeAt] at hn3
                | cons q' r'' => simp [nodeAt, getEProp, lookupE] at hn3
              · right; rw [h]
            · rw [if_neg hq] at hn
              exact Or.inl ⟨errs2, extra2, hn⟩
        · intro r hr htn
          obtain ⟨fs2, hn⟩ := htn
          cases r with
          | nil => exact absurd rfl hr
          | cons q r' =>
            rw [nodeAt_set_tree] at hn
            by_cases hq : k = q
            · rw [if_pos hq] at hn
              subst hq
              cases r' with
              | nil =>
                right
                exact ProperPrefix_single (by simp)
              | cons q' r'' =>
                rcases htree' (q' :: r'') (by simp) ⟨fs2, hn⟩ with h | h
                · obtain ⟨f3, hn3⟩ := h
                  simp [nodeAt, getEProp, lookupE] at hn3
                · right
                  exact ProperPrefix.cons k h
            · rw [if_neg hq] at hn
              exact Or.inl ⟨fs2, hn⟩

/-- Folding errors whose non-empty computed paths avoid proper-prefix
relations — with each other and with the already-inserted paths `P` — keeps
the accumulator a well-formed tree and never raises the `TypeError`.
Records with an empty computed path need no condition: they leave the
accumulator untouched. -/
theorem fold_wf :
    ∀ (errors : List ErrorObj) (fs : List (String × EVal)) (P : List (List String)),
      wfEVal (EVal.tree fs) = true →
      (∀ r, r ≠ [] → isListNode (EVal.tree fs) r → r ∈ P) →
      (∀ r, r ≠ [] → isTreeNode (EVal.tree fs) r → ∃ q, q ∈ P ∧ ProperPrefix r q) →
      (∀ q, q ∈ P → q ≠ []) →
      (∀ e, e ∈ errors → pathOf e ≠ [] → ∀ q, q ∈ P →
        ¬ProperPrefix (pathOf e) q ∧ ¬ProperPrefix q (pathOf e)) →
      (∀ e, e ∈ errors → ∀ e2, e2 ∈ errors → pathOf e ≠ [] →
        ¬ProperPrefix (pathOf e) (pathOf e2)) →
      ∃ t, List.foldl etmStep (Except.ok (EVal.tree fs)) errors = Except.ok t ∧
        wfEVal t = true := by
  intro errors
  induction errors with
  | nil =>
    intro fs P hwf _ _ _ _ _
    exact ⟨EVal.tree fs, rfl, hwf⟩
  | cons e rest ihe =>
    intro fs P hwf hinv2 hinv3 hPne hfreeP hpair
    by_cases hp : pathOf e = []
    · have hstep : etmStep (Except.ok (EVal.tree fs)) e = Except.ok (EVal.tree fs) := by
        simp [etmStep, hp, addError]
      rw [List.foldl_cons, hstep]
      exact ihe fs P hwf hinv2 hinv3 hPne
        (fun e2 he2 => hfreeP e2 (List.mem_cons_of_mem _ he2))
        (fun e2 he2 e3 he3 =>
          hpair e2 (List.mem_cons_of_mem _ he2) e3 (List.mem_cons_of_mem _ he3))
    · have hfreeFor : freeForP (EVal.tree fs) (pathOf e) := by
        apply freeFor_of _ _ hp
        · intro r hr hpp hln
          exact (hfreeP e (List.mem_cons_self _ _) hp r (hinv2 r hr hln)).2 hpp
        · intro htn
          obtain ⟨q, hqP, hpq⟩ := hinv3 (pathOf e) hp htn
          exact (hfreeP e (List.mem_cons_self _ _) hp q hqP).1 hpq
      obtain ⟨fs', hok, hwf', hlist', htree'⟩ := addError_step (pathOf e) fs e hp hwf hfreeFor
      have hstep : etmStep (Except.ok (EVal.tree fs)) e = Except.ok (EVal.tree fs') := by
        simp [etmStep, hok]
      rw [List.foldl_cons, hstep]
      apply ihe fs' (pathOf e :: P) hwf'
      · intro r hr hln
        rcases hlist' r hln with h | h
        · exact List.mem_cons_of_mem _ (hinv2 r hr h)
        · rw [h]
          exact List.mem_cons_self _ _
      · intro r hr htn
        rcases htree' r hr htn with h | h
        · obtain ⟨q, hqP, hpq⟩ := hinv3 r hr h
          exact ⟨q, List.mem_cons_of_mem _ hqP, hpq⟩
        · exact ⟨pathOf e, List.mem_cons_self _ _, h⟩
      · intro q hq
        rcases List.mem_cons.1 hq with h | h
        · rw [h]
          exact hp
        · exact hPne q h
      · intro e2 he2 hne q hq
        rcases List.mem_cons.1 hq with h | h
        · subst h
          exact ⟨hpair e2 (List.mem_cons_of_mem _ he2) e (List.mem_cons_self _ _) hne,
            hpair e (List.mem_cons_self _ _) e2 (List.mem_cons_of_mem _ he2) hp⟩
        · exact hfreeP e2 (List.mem_cons_of_mem _ he2) hne q h
      · intro e2 he2 e3 he3
        exact hpair e2 (List.mem_cons_of_mem _ he2) e3 (List.mem_cons_of_mem _ he3)

/-- C1 amended: for every list of error records in which no non-empty
computed field path is a proper prefix of another record's computed path
(records with an empty computed path are unconstrained — they contribute
nothing), `errorsToMap` succeeds and returns a tree satisfying the
invariant: every key maps to exactly one of a nested sub-tree or a
non-empty error list carrying no sub-tree entries. (When one non-empty path
properly extends another, the invariant can fail or the call throws — see
the counterexample.) -/
theorem errorsToMap_wf (errors : List ErrorObj)
    (hfree : ∀ e, e ∈ errors → ∀ e2, e2 ∈ errors → pathOf e ≠ [] →
      ¬ProperPrefix (pathOf e) (pathOf e2)) :
    ∃ t, errorsToMap errors = Except.ok t ∧ wfEVal t = true := by
  have hinv2 : ∀ r, r ≠ [] → isListNode (EVal.tree []) r →
      r ∈ ([] : List (List String)) := by
    intro r hr hln
    obtain ⟨errs, extra, hn⟩ := hln
    cases r with
    | nil => exact absurd rfl hr
    | cons q r' => simp [nodeAt, getEProp, lookupE] at hn
  have hinv3 : ∀ r, r ≠ [] → isTreeNode (EVal.tree []) r →
      ∃ q, q ∈ ([] : List (List String)) ∧ ProperPrefix r q := by
    intro r hr htn
    obtain ⟨fs2, hn⟩ := htn
    cases r with
    | nil => exact absurd rfl hr
    | cons q r' => simp [nodeAt, getEProp, lookupE] at hn
  have h := fold_wf errors [] [] (by simp [wfEVal, wfEFields]) hinv2 hinv3
    (by intro q hq; simp at hq) (by intro e _ _ q hq; simp at hq) hfree
  simpa [errorsToMap] using h

/-- Witness for the amended C1 theorem: the spec's example records plus a
root-scoped empty-path record (`dataPath: ""`, non-required) — the non-empty
computed paths `["foo"]` and `["bar"]` are prefix-free and the empty path is
unconstrained, so the invariant holds. -/
theorem errorsToMap_wf_witness :
    ∃ t, errorsToMap [ErrorObj.mk ".foo" "type" "", ErrorObj.mk "" "type" "",
        ErrorObj.mk "" "required" "bar"] =
      Except.ok t ∧ wfEVal t = true :=
  errorsToMap_wf [ErrorObj.mk ".foo" "type" "", ErrorObj.mk "" "type" "",
    ErrorObj.mk "" "required" "bar"] (by decide)

/-- C1 counterexample: the records at `.a` and `.a.b` (one path a proper
prefix of the other) make `errorsToMap` return a tree whose key `"a"` holds
an error list that also carries the sub-tree entry `"b"` — a key mapping to
both at once, violating the claimed invariant. -/
theorem errorsToMap_invariant_counterexample :
    errorsToMap [ErrorObj.mk ".a" "type" "", ErrorObj.mk ".a.b" "type" ""] =
      Except.ok (EVal.tree [("a", EVal.list [ErrorObj.mk ".a" "type" ""]
        [("b", EVal.list [ErrorObj.mk ".a.b" "type" ""] [])])]) ∧
    wfEVal (EVal.tree [("a", EVal.list [ErrorObj.mk ".a" "type" ""]
        [("b", EVal.list [ErrorObj.mk ".a.b" "type" ""] [])])]) = false := by
  refine ⟨rfl, ?_⟩
  simp [wfEVal, wfEFields]
